import Mathlib

/-!
Verification of the `unconfusables` package (Unicode confusable characters).

The TypeScript source operates on JavaScript strings, which are sequences of
UTF-16 code units; `text.split("")` splits per code unit and `char[0]` takes
the first code unit.  We therefore model a JS string as a `List Nat` of its
code units.  JS objects keyed by strings are modelled as association lists
with first-match lookup; JS `Set` insertion order is modelled by
append-if-absent.  Randomness (`Math.random()`) is modelled by explicit
oracle parameters: a number `rnd` standing for the drawn index (the code's
`Math.floor(Math.random() * targets.length)` is any value in `[0, length)`,
here `rnd % length`), and per-position streams for `randomizeConfusables`.

The bundled dataset `src/data/confusables.json` is generated offline by
`scripts/update.ts` and is not part of the source tree; every function is
therefore parametrised by the dataset, `mkConfusableMap` embeds the
construction performed by `update.ts`, and concrete sample datasets used in
witnesses and counterexamples are modelled from the spec (its data-model
section and its concrete scenarios).
-/

set_option maxRecDepth 8000

/-- A JavaScript string: the list of its UTF-16 code units. -/
abbrev JSString := List Nat

/-- Whether a code unit is a high (leading) surrogate. -/
def isHighSurrogate (u : Nat) : Bool := decide (0xD800 ≤ u ∧ u ≤ 0xDBFF)

/-- Whether a code unit is a low (trailing) surrogate. -/
def isLowSurrogate (u : Nat) : Bool := decide (0xDC00 ≤ u ∧ u ≤ 0xDFFF)

/-- Whether a code unit is a surrogate. -/
def isSurrogate (u : Nat) : Bool := isHighSurrogate u || isLowSurrogate u

/-- Whether a number is a Unicode scalar value (a code point that is not a
surrogate). -/
def isScalar (cp : Nat) : Bool := decide (cp < 0x110000) && !(decide (0xD800 ≤ cp ∧ cp ≤ 0xDFFF))

/-- JavaScript `String.fromCodePoint` for one code point: one code unit in the
basic plane, a surrogate pair above it. -/
def fromCodePoint (cp : Nat) : JSString :=
  if cp < 0x10000 then [cp]
  else [0xD800 + (cp - 0x10000) / 0x400, 0xDC00 + (cp - 0x10000) % 0x400]

/-- The number of code points of a JS string: a high surrogate directly
followed by a low surrogate counts once (this is how JS string iteration and
the spread operator count characters). -/
def cpLen : List Nat → Nat
  | [] => 0
  | [_] => 1
  | u :: v :: rest =>
    if isHighSurrogate u && isLowSurrogate v then 1 + cpLen rest
    else 1 + cpLen (v :: rest)

/-- The `ConfusableType` union of `src/packages/unconfusables/src/types.ts`. -/
inductive ConfusableType : Type
  | MA
  | MI
  | X
deriving DecidableEq

/-- The `ConfusableRecord` interface of `types.ts`; the optional description
is a string. -/
structure ConfusableRecord : Type where
  source : JSString
  target : List JSString
  type : ConfusableType
  description : Option JSString := none
deriving DecidableEq

/-- The `ConfusableMap` interface of `types.ts`: the two JS objects are
association lists keyed by strings. -/
structure ConfusableMap : Type where
  version : JSString
  date : JSString
  confusables : List (JSString × ConfusableRecord)
  reverseLookup : List (JSString × List JSString)
deriving DecidableEq

/-- Property access `obj[k]` on a JS object: the value bound to the key, if
any (a JS object holds at most one binding per key). -/
def objGet {α : Type} (m : List (JSString × α)) (k : JSString) : Option α :=
  (m.find? (fun p => p.1 == k)).map (fun p => p.2)

/-- Property assignment `obj[k] = v` on a JS object: replaces the binding when
the key is present, appends it otherwise. -/
def objSet {α : Type} (m : List (JSString × α)) (k : JSString) (v : α) : List (JSString × α) :=
  if m.any (fun p => p.1 == k) then
    m.map (fun p => if p.1 == k then (k, v) else p)
  else m ++ [(k, v)]

/-- Embedding of `getConfusables` (utils.ts lines 13-17): empty string gives
null, otherwise the map is indexed by `char[0]`, the one-code-unit string of
the FIRST UTF-16 CODE UNIT. -/
def getConfusables (m : ConfusableMap) (char : JSString) : Option ConfusableRecord :=
  match char with
  | [] => none
  | u :: _ => objGet m.confusables [u]

/-- Embedding of `getConfusableSources` (utils.ts lines 20-24): empty string
gives `[]`, otherwise `reverseLookup[char[0]] || []`. -/
def getConfusableSources (m : ConfusableMap) (char : JSString) : List JSString :=
  match char with
  | [] => []
  | u :: _ => (objGet m.reverseLookup [u]).getD []

/-- The per-code-unit body of `normalizeString`'s `.map` callback: a code unit
with a record of the selected type becomes `confusable.target[0]`, every other
code unit passes through.  (JS `target[0]` on an empty array is `undefined`,
which `join` renders as the empty string, hence `headD []`.) -/
def normBlock (m : ConfusableMap) (type : ConfusableType) (u : Nat) : JSString :=
  match objGet m.confusables [u] with
  | some confusable => if confusable.type = type then confusable.target.headD [] else [u]
  | none => [u]

/-- Embedding of `normalizeString` (utils.ts lines 27-41):
`text.split("").map(...).join("")` — split per UTF-16 code unit, map each
unit, concatenate. -/
def normalizeString (m : ConfusableMap) (text : JSString) (type : ConfusableType) : JSString :=
  (text.map (normBlock m type)).flatten

/-- Embedding of `areConfusable` (utils.ts lines 58-66): exact string equality
of the two normalized forms. -/
def areConfusable (m : ConfusableMap) (str1 str2 : JSString) (type : ConfusableType) : Bool :=
  normalizeString m str1 type == normalizeString m str2 type

/-- JS `Set.add` under insertion-order iteration: append unless present. -/
def setAdd (variations : List JSString) (s : JSString) : List JSString :=
  if s ∈ variations then variations else variations ++ [s]

/-- The first loop of `getConfusableVariations` (utils.ts lines 78-87):
collect `[i, confusable.target.length]` for each index whose code unit has a
record of the selected type with a non-empty target list. -/
def collectPositions (m : ConfusableMap) (type : ConfusableType) : List Nat → Nat → List (Nat × Nat)
  | [], _ => []
  | u :: rest, i =>
    (match objGet m.confusables [u] with
     | some confusable =>
       if confusable.type = type ∧ confusable.target.length > 0 then
         [(i, confusable.target.length)]
       else []
     | none => []) ++ collectPositions m type rest (i + 1)

/-- The assignment `variation[pos] = target` followed by `variation.join("")`:
the split array with slot `pos` holding the whole target string,
concatenated. -/
def spliceAt (chars : List Nat) (pos : Nat) (target : JSString) : JSString :=
  ((chars.map (fun u => [u])).set pos target).flatten

/-- The second loop of `getConfusableVariations` (utils.ts lines 89-96): for
each collected position, add the splice of every target of that position's
record. -/
def addVariations (m : ConfusableMap) (chars : List Nat) :
    List (Nat × Nat) → List JSString → List JSString
  | [], acc => acc
  | (pos, _) :: rest, acc =>
    addVariations m chars rest
      (match objGet m.confusables [chars.getD pos 0] with
       | some confusable =>
         confusable.target.foldl (fun a target => setAdd a (spliceAt chars pos target)) acc
       | none => acc)

/-- Embedding of `getConfusableVariations` (utils.ts lines 69-100): a set
seeded with the input text, grown by the two loops, returned in insertion
order. -/
def getConfusableVariations (m : ConfusableMap) (text : JSString) (type : ConfusableType) :
    List JSString :=
  addVariations m text (collectPositions m type text 0) (setAdd [] text)

/-- The `RandomConfusableOptions` interface: an optional type filter and an
optional exclusion `Set` of strings. -/
structure RandomConfusableOptions : Type where
  type : Option ConfusableType := none
  exclude : Option (List JSString) := none
deriving DecidableEq

/-- The test `options.type && confusable.type !== options.type`. -/
def typeMismatchB (options : RandomConfusableOptions) (confusable : ConfusableRecord) : Bool :=
  match options.type with
  | some t => confusable.type != t
  | none => false

/-- Membership of a string in the optional exclusion set. -/
def excludedByB (options : RandomConfusableOptions) (t : JSString) : Bool :=
  match options.exclude with
  | some ex => ex.contains t
  | none => false

/-- Embedding of `getRandomConfusable` (utils.ts lines 103-124).  `rnd` is the
randomness oracle: the code draws `Math.floor(Math.random() * targets.length)`,
a uniform index in `[0, targets.length)`, embedded as `rnd % targets.length`
so every outcome is reachable.  Note the lookup here uses the WHOLE input
string as the key, unlike `getConfusables`. -/
def getRandomConfusable (m : ConfusableMap) (char : JSString)
    (options : RandomConfusableOptions) (rnd : Nat) : JSString :=
  if char = [] then char else
  match objGet m.confusables char with
  | none => char
  | some confusable =>
    if confusable.target = [] then char
    else if typeMismatchB options confusable then char
    else
      match options.exclude with
      | some ex =>
        let targets := confusable.target.filter (fun t => !(ex.contains t))
        if targets = [] then char
        else targets.getD (rnd % targets.length) []
      | none => confusable.target.getD (rnd % confusable.target.length) []

/-- Embedding of `randomizeConfusables` (utils.ts lines 127-142):
`text.split("").map(...).join("")` where each code unit is independently
either passed to `getRandomConfusable` or kept.  `coin i` is the outcome of
position `i`'s Bernoulli trial `Math.random() < probability`, and `pick i`
the randomness consumed by `getRandomConfusable` at position `i`. -/
def randomizeConfusables (m : ConfusableMap) (text : JSString)
    (options : RandomConfusableOptions) (coin : Nat → Bool) (pick : Nat → Nat) : JSString :=
  (text.enum.map (fun p =>
    if coin p.1 then getRandomConfusable m [p.2] options (pick p.1) else [p.2])).flatten

/-- One data line of the upstream `confusables.txt`, as matched by
`parseConfusablesFile` (scripts/update.ts): a source code point, the target
code points, and the classification. -/
structure RawEntry : Type where
  source : Nat
  targets : List Nat
  type : ConfusableType

/-- The reverse-index update of `parseConfusablesFile` (update.ts lines
84-88): ensure the bucket exists, then push the source character. -/
def addReverse (rl : List (JSString × List JSString)) (targetChar sourceChar : JSString) :
    List (JSString × List JSString) :=
  match objGet rl targetChar with
  | none => objSet rl targetChar [sourceChar]
  | some l => objSet rl targetChar (l ++ [sourceChar])

/-- One iteration of `parseConfusablesFile`'s line loop (update.ts lines
52-88): build the record from the code points, store it under the source
character, and push the source character into every target's reverse
bucket. -/
def applyEntry (acc : List (JSString × ConfusableRecord) × List (JSString × List JSString))
    (e : RawEntry) : List (JSString × ConfusableRecord) × List (JSString × List JSString) :=
  let sourceChar := fromCodePoint e.source
  let targetChars := e.targets.map fromCodePoint
  (objSet acc.1 sourceChar ⟨sourceChar, targetChars, e.type, none⟩,
   targetChars.foldl (fun rl t => addReverse rl t sourceChar) acc.2)

/-- The dataset built by `parseConfusablesFile` from a list of data lines
(provenance strings are irrelevant to every claim and left empty). -/
def mkConfusableMap (entries : List RawEntry) : ConfusableMap :=
  let p := entries.foldl applyEntry ([], [])
  ⟨[], [], p.1, p.2⟩

/-- Modelled from the spec: the variation set its generateVariations contract
describes — the Cartesian product, across all positions, of each position's
alternatives, where a position's alternatives are the original character plus
the target list of its record when the record exists and matches the
classification filter. -/
def positionAlternatives (m : ConfusableMap) (type : ConfusableType) (u : Nat) :
    List JSString :=
  [u] :: (match objGet m.confusables [u] with
          | some confusable => if confusable.type = type then confusable.target else []
          | none => [])

/-- Modelled from the spec: the full Cartesian product of per-position
alternatives, materialized as complete strings. -/
def specVariations (m : ConfusableMap) (type : ConfusableType) : List Nat → List JSString
  | [] => [[]]
  | u :: rest =>
    (positionAlternatives m type u).flatMap
      (fun a => (specVariations m type rest).map (fun v => a ++ v))

/-- Whether a string is the UTF-16 encoding of exactly one Unicode scalar
value: a lone basic-plane non-surrogate unit, or a surrogate pair. -/
def isScalarEncoded : JSString → Bool
  | [u] => decide (u < 0x10000) && !(isSurrogate u)
  | [h, l] => isHighSurrogate h && isLowSurrogate l
  | _ => false

/-- Modelled from the spec: well-formedness of one dataset binding, following
the spec's data model — a source is exactly one character (one code point,
hence a one-unit key is never a surrogate half and no key is empty), a
record's target list is never empty, and each target is exactly one
character.  This is what `parseConfusablesFile` produces from well-formed
`confusables.txt` lines, whose code points are assigned characters, never
surrogates. -/
def wfEntry : JSString × ConfusableRecord → Bool
  | (k, confusable) =>
    (match k with
     | [] => false
     | [u] => !(isSurrogate u)
     | _ :: _ :: _ => true)
    && !(confusable.target.isEmpty)
    && confusable.target.all isScalarEncoded

/-- Modelled from the spec: a well-formed dataset, every binding well-formed. -/
def WFMap (m : ConfusableMap) : Bool := m.confusables.all wfEntry

/-- Sample record from the spec's concrete scenario: digit `"0"` has target
`["O"]` under classification MA. -/
def rec0 : ConfusableRecord := ⟨[0x30], [[0x4F]], ConfusableType.MA, none⟩

/-- Sample dataset holding only the `"0"` to `"O"` mapping, with its reverse
index as `parseConfusablesFile` builds it. -/
def map0 : ConfusableMap := ⟨[], [], [([0x30], rec0)], [([0x4F], [[0x30]])]⟩

/-- Sample record modelled from the spec: a supplementary-plane source
character (the spec's data model notes a source may require more than one
16-bit code unit), U+1D400 with target `"A"` under MA, exactly the shape
`parseConfusablesFile` builds from the upstream line `1D400 ; 0041 ; MA`. -/
def recBoldA : ConfusableRecord := ⟨fromCodePoint 0x1D400, [[0x41]], ConfusableType.MA, none⟩

/-- Sample dataset holding only the U+1D400 mapping. -/
def mapBoldA : ConfusableMap :=
  ⟨[], [], [(fromCodePoint 0x1D400, recBoldA)], [([0x41], [fromCodePoint 0x1D400])]⟩


/-! ### Basic lemmas about the JS object model -/

/-- A successful property access exhibits a binding of the object. -/
theorem objGet_mem {α : Type} {m : List (JSString × α)} {k : JSString} {v : α}
    (h : objGet m k = some v) : (k, v) ∈ m := by
  unfold objGet at h
  cases hf : m.find? (fun p => p.1 == k) with
  | none => rw [hf] at h; exact absurd h (by simp)
  | some p =>
    rw [hf] at h
    have hp := List.find?_some hf
    have hm : p ∈ m := List.mem_of_find?_eq_some hf
    have h1 : p.1 = k := by simpa using hp
    have h2 : p.2 = v := by simpa using h
    rw [← h1, ← h2]
    simpa using hm

/-- In a well-formed dataset, binding facts flow from lookups. -/
theorem wf_of_objGet {m : ConfusableMap} {k : JSString} {r : ConfusableRecord}
    (hwf : WFMap m = true) (h : objGet m.confusables k = some r) :
    wfEntry (k, r) = true := by
  have := objGet_mem h
  exact List.all_eq_true.mp hwf _ this

/-! ### Unfolding lemmas for normalizeString -/

theorem normalizeString_nil (m : ConfusableMap) (type : ConfusableType) :
    normalizeString m [] type = [] := rfl

theorem normalizeString_cons (m : ConfusableMap) (u : Nat) (rest : List Nat)
    (type : ConfusableType) :
    normalizeString m (u :: rest) type = normBlock m type u ++ normalizeString m rest type := by
  simp [normalizeString]

theorem normalizeString_append (m : ConfusableMap) (a b : JSString) (type : ConfusableType) :
    normalizeString m (a ++ b) type = normalizeString m a type ++ normalizeString m b type := by
  simp [normalizeString]

/-- Claim C8: `areConfusable` is exactly equality of the normalized forms, and
is therefore reflexive and symmetric. -/
theorem areConfusable_iff_refl_symm (m : ConfusableMap) (type : ConfusableType)
    (a b s : JSString) :
    (areConfusable m a b type = true ↔ normalizeString m a type = normalizeString m b type)
    ∧ areConfusable m s s type = true
    ∧ areConfusable m a b type = areConfusable m b a type := by
  refine ⟨by simp [areConfusable], by simp [areConfusable], ?_⟩
  have h1 : areConfusable m a b type = true ↔
      normalizeString m a type = normalizeString m b type := by simp [areConfusable]
  have h2 : areConfusable m b a type = true ↔
      normalizeString m b type = normalizeString m a type := by simp [areConfusable]
  rw [Bool.eq_iff_iff, h1, h2, eq_comm]

/-- Claim C2 (the failing evaluation): the dataset maps the supplementary
character U+1D400 to `"A"` under MA, yet `normalizeString` returns the input
unchanged — `split("")` iterates UTF-16 code units, so the record keyed by the
two-unit character is never found and each lone surrogate half passes
through. -/
theorem normalizeString_misses_supplementary_record :
    objGet mapBoldA.confusables (fromCodePoint 0x1D400) = some recBoldA
    ∧ recBoldA.type = ConfusableType.MA
    ∧ recBoldA.target.headD [] = [0x41]
    ∧ normalizeString mapBoldA (fromCodePoint 0x1D400) ConfusableType.MA = fromCodePoint 0x1D400
    ∧ fromCodePoint 0x1D400 ≠ [0x41] := by decide

/-- Claim C5 (the failing evaluation): for the supplementary character
U+1D400, whose first (and only) code point has a record, `getConfusables`
returns null — it indexes with `char[0]`, the lone high surrogate; likewise
`getConfusableSources` misses a reverse bucket keyed by a supplementary
character.  The empty-string conjuncts show the part of the claim that does
hold. -/
theorem getConfusables_misses_supplementary_first_char :
    objGet mapBoldA.confusables (fromCodePoint 0x1D400) = some recBoldA
    ∧ getConfusables mapBoldA (fromCodePoint 0x1D400) = none
    ∧ getConfusables mapBoldA [] = none
    ∧ getConfusableSources mapBoldA [] = [] := by decide

/-! ### Membership characterization of getConfusableVariations -/

theorem mem_setAdd {l : List JSString} {s x : JSString} :
    x ∈ setAdd l s ↔ x ∈ l ∨ x = s := by
  by_cases h : s ∈ l
  · rw [setAdd, if_pos h]
    exact ⟨Or.inl, fun hx => hx.elim id (fun e => e ▸ h)⟩
  · rw [setAdd, if_neg h]
    simp

theorem mem_foldl_setAdd (f : JSString → JSString) :
    ∀ (ts : List JSString) (acc : List JSString) (x : JSString),
      x ∈ ts.foldl (fun a t => setAdd a (f t)) acc ↔ x ∈ acc ∨ ∃ t ∈ ts, x = f t
  | [], acc, x => by simp
  | t :: ts, acc, x => by
    simp only [List.foldl_cons]
    rw [mem_foldl_setAdd f ts (setAdd acc (f t)) x, mem_setAdd]
    constructor
    · rintro ((hx | rfl) | ⟨t', ht', rfl⟩)
      · exact Or.inl hx
      · exact Or.inr ⟨t, by simp⟩
      · exact Or.inr ⟨t', by simp [ht']⟩
    · rintro (hx | ⟨t', ht', rfl⟩)
      · exact Or.inl (Or.inl hx)
      · rcases List.mem_cons.mp ht' with rfl | ht''
        · exact Or.inl (Or.inr rfl)
        · exact Or.inr ⟨t', ht'', rfl⟩

theorem mem_addVariations (m : ConfusableMap) (chars : List Nat) :
    ∀ (ps : List (Nat × Nat)) (acc : List JSString) (x : JSString),
      x ∈ addVariations m chars ps acc ↔
        x ∈ acc ∨ ∃ pn ∈ ps, ∃ r, objGet m.confusables [chars.getD pn.1 0] = some r ∧
          ∃ t ∈ r.target, x = spliceAt chars pn.1 t
  | [], acc, x => by simp [addVariations]
  | (pos, n) :: ps, acc, x => by
    have heq : addVariations m chars ((pos, n) :: ps) acc =
        addVariations m chars ps
          (match objGet m.confusables [chars.getD pos 0] with
           | some confusable =>
             confusable.target.foldl (fun a target => setAdd a (spliceAt chars pos target)) acc
           | none => acc) := rfl
    rw [heq, mem_addVariations m chars ps _ x]
    cases hob : objGet m.confusables [chars.getD pos 0] with
    | none =>
      constructor
      · rintro (hx | ⟨pn, hpn, hrest⟩)
        · exact Or.inl hx
        · exact Or.inr ⟨pn, List.mem_cons_of_mem _ hpn, hrest⟩
      · rintro (hx | ⟨pn, hpn, r, hr, hrest⟩)
        · exact Or.inl hx
        · rcases List.mem_cons.mp hpn with rfl | hpn'
          · rw [hob] at hr; exact absurd hr (by simp)
          · exact Or.inr ⟨pn, hpn', r, hr, hrest⟩
    | some r =>
      rw [mem_foldl_setAdd]
      constructor
      · rintro ((hx | ⟨t, ht, rfl⟩) | ⟨pn, hpn, hrest⟩)
        · exact Or.inl hx
        · exact Or.inr ⟨(pos, n), List.mem_cons_self _ _, r, hob, t, ht, rfl⟩
        · exact Or.inr ⟨pn, List.mem_cons_of_mem _ hpn, hrest⟩
      · rintro (hx | ⟨pn, hpn, r', hr', t, ht, rfl⟩)
        · exact Or.inl (Or.inl hx)
        · rcases List.mem_cons.mp hpn with rfl | hpn'
          · rw [hob] at hr'
            cases hr'
            exact Or.inl (Or.inr ⟨t, ht, rfl⟩)
          · exact Or.inr ⟨pn, hpn', r', hr', t, ht, rfl⟩

theorem mem_collectPositions (m : ConfusableMap) (type : ConfusableType) :
    ∀ (l : List Nat) (i : Nat) (pn : Nat × Nat),
      pn ∈ collectPositions m type l i ↔
        ∃ j, j < l.length ∧ pn.1 = i + j ∧
          ∃ r, objGet m.confusables [l.getD j 0] = some r ∧ r.type = type ∧
            r.target.length > 0 ∧ pn.2 = r.target.length
  | [], i, pn => by simp [collectPositions]
  | u :: rest, i, pn => by
    have heq : collectPositions m type (u :: rest) i =
        (match objGet m.confusables [u] with
         | some confusable =>
           if confusable.type = type ∧ confusable.target.length > 0 then
             [(i, confusable.target.length)]
           else []
         | none => []) ++ collectPositions m type rest (i + 1) := rfl
    rw [heq]
    have hrec := mem_collectPositions m type rest (i + 1) pn
    constructor
    · intro hx
      rcases List.mem_append.mp hx with hx | hx
      · cases hob : objGet m.confusables [u] with
        | none => rw [hob] at hx; exact absurd hx (by simp)
        | some r =>
          rw [hob] at hx
          have hx' : pn ∈ (if r.type = type ∧ r.target.length > 0 then
              [(i, r.target.length)] else []) := hx
          by_cases hc : r.type = type ∧ r.target.length > 0
          · rw [if_pos hc] at hx'
            have hpn : pn = (i, r.target.length) := by simpa using hx'
            refine ⟨0, by simp, by simp [hpn], r, by simpa using hob, hc.1, hc.2, by simp [hpn]⟩
          · rw [if_neg hc] at hx'; exact absurd hx' (by simp)
      · rcases hrec.mp hx with ⟨j, hj, hpn1, r, hr, hty, hlen, hpn2⟩
        exact ⟨j + 1, by simpa using hj, by omega, r, by simpa using hr, hty, hlen, hpn2⟩
    · rintro ⟨j, hj, hpn1, r, hr, hty, hlen, hpn2⟩
      cases j with
      | zero =>
        have hu : objGet m.confusables [u] = some r := by simpa using hr
        apply List.mem_append.mpr
        left
        rw [hu]
        show pn ∈ (if r.type = type ∧ r.target.length > 0 then [(i, r.target.length)] else [])
        rw [if_pos ⟨hty, hlen⟩]
        have hpn : pn = (i, r.target.length) := by
          apply Prod.ext <;> simp [hpn1, hpn2]
        simp [hpn]
      | succ j =>
        apply List.mem_append.mpr
        right
        exact hrec.mpr ⟨j, by simpa using hj, by omega, r, by simpa using hr, hty, hlen, hpn2⟩

/-- The exact membership of `getConfusableVariations`: the input text, plus
every single-position substitution of an eligible position's character by one
element of its record's target list. -/
theorem mem_getConfusableVariations (m : ConfusableMap) (text : JSString)
    (type : ConfusableType) (v : JSString) :
    v ∈ getConfusableVariations m text type ↔
      v = text ∨ ∃ pos, pos < text.length ∧
        ∃ r, objGet m.confusables [text.getD pos 0] = some r ∧ r.type = type ∧
          ∃ t ∈ r.target, v = spliceAt text pos t := by
  unfold getConfusableVariations
  rw [mem_addVariations]
  have hseed : v ∈ setAdd [] text ↔ v = text := by simp [setAdd]
  rw [hseed]
  constructor
  · rintro (rfl | ⟨pn, hpn, r, hr, t, ht, rfl⟩)
    · exact Or.inl rfl
    · rcases (mem_collectPositions m type text 0 pn).mp hpn with
        ⟨j, hj, hpn1, r', hr', hty, hlen, hpn2⟩
      rw [hpn1, Nat.zero_add] at hr ⊢
      rw [hr] at hr'
      cases hr'
      exact Or.inr ⟨j, hj, r, hr, hty, t, ht, rfl⟩
  · rintro (rfl | ⟨pos, hpos, r, hr, hty, t, ht, rfl⟩)
    · exact Or.inl rfl
    · refine Or.inr ⟨(pos, r.target.length), ?_, r, hr, t, ht, rfl⟩
      exact (mem_collectPositions m type text 0 (pos, r.target.length)).mpr
        ⟨pos, hpos, by simp, r, hr, hty, List.length_pos.mpr (List.ne_nil_of_mem ht), rfl⟩

/-- Claim C1 (amended): `getConfusableVariations` returns exactly the input
text together with every SINGLE-position substitution — at each eligible
position, each element of that position's target list — deduplicated; it does
not form the Cartesian product across positions. -/
theorem getConfusableVariations_mem_iff_single_substitution (m : ConfusableMap)
    (text : JSString) (type : ConfusableType) (v : JSString) :
    v ∈ getConfusableVariations m text type ↔
      v = text ∨ ∃ pos, pos < text.length ∧
        ∃ r, objGet m.confusables [text.getD pos 0] = some r ∧ r.type = type ∧
          ∃ t ∈ r.target, v = spliceAt text pos t :=
  mem_getConfusableVariations m text type v

/-- Claim C1 (counterexample): with the spec's own `"0"` to `"O"` MA mapping,
the Cartesian-product contract contains `"OO"` for input `"00"` but the
function's result does not — only single-position substitutions are
produced. -/
theorem getConfusableVariations_omits_double_substitution :
    [0x4F, 0x4F] ∈ specVariations map0 ConfusableType.MA [0x30, 0x30]
    ∧ [0x4F, 0x4F] ∉ getConfusableVariations map0 [0x30, 0x30] ConfusableType.MA := by decide

/-- Claim C10: every member of `getConfusableVariations` is the input text
itself or is obtained from it by substituting a single element of an eligible
record's target list at exactly one position; strings produced by substituting
at two or more positions simultaneously are never members. -/
theorem getConfusableVariations_single_substitution_only (m : ConfusableMap)
    (text : JSString) (type : ConfusableType) (v : JSString)
    (hv : v ∈ getConfusableVariations m text type) :
    v = text ∨ ∃ pos, pos < text.length ∧
      ∃ r, objGet m.confusables [text.getD pos 0] = some r ∧ r.type = type ∧
        ∃ t ∈ r.target, v = spliceAt text pos t :=
  (mem_getConfusableVariations m text type v).mp hv

/-- Witness for claim C10 at the concrete dataset `map0` and input `"00"`,
whose member `"O0"` is a single-position substitution. -/
theorem getConfusableVariations_single_substitution_only_witness :
    [0x4F, 0x30] = [0x30, 0x30] ∨ ∃ pos, pos < ([0x30, 0x30] : JSString).length ∧
      ∃ r, objGet map0.confusables [([0x30, 0x30] : List Nat).getD pos 0] = some r ∧
        r.type = ConfusableType.MA ∧
        ∃ t ∈ r.target, [0x4F, 0x30] = spliceAt [0x30, 0x30] pos t :=
  getConfusableVariations_single_substitution_only map0 [0x30, 0x30] ConfusableType.MA
    [0x4F, 0x30] (by decide)

/-! ### Code-point counting -/

theorem cpLen_cons_not_high {u : Nat} (hu : isHighSurrogate u = false) (t : List Nat) :
    cpLen (u :: t) = 1 + cpLen t := by
  cases t with
  | nil => simp [cpLen]
  | cons v rest => simp [cpLen, hu]

theorem cpLen_cons_cons_high_low {u v : Nat} (hu : isHighSurrogate u = true)
    (hv : isLowSurrogate v = true) (t : List Nat) :
    cpLen (u :: v :: t) = 1 + cpLen t := by
  simp [cpLen, hu, hv]

theorem cpLen_cons_high_not_low {u w : Nat} (hu : isHighSurrogate u = true)
    (hw : isLowSurrogate w = false) (t : List Nat) :
    cpLen (u :: w :: t) = 1 + cpLen (w :: t) := by
  simp [cpLen, hu, hw]

theorem isScalar_not_high {cp : Nat} (h : isScalar cp = true) (h2 : cp < 0x10000) :
    isHighSurrogate cp = false := by
  simp only [isScalar, Bool.and_eq_true, decide_eq_true_eq, Bool.not_eq_true',
    decide_eq_false_iff_not] at h
  simp only [isHighSurrogate, decide_eq_false_iff_not]
  omega

theorem cpLen_scalar_append {cp : Nat} (h : isScalar cp = true) (t : List Nat) :
    cpLen (fromCodePoint cp ++ t) = 1 + cpLen t := by
  have h' := h
  simp only [isScalar, Bool.and_eq_true, decide_eq_true_eq, Bool.not_eq_true',
    decide_eq_false_iff_not] at h'
  unfold fromCodePoint
  by_cases hlt : cp < 0x10000
  · rw [if_pos hlt]
    exact cpLen_cons_not_high (isScalar_not_high h hlt) t
  · rw [if_neg hlt]
    refine cpLen_cons_cons_high_low ?_ ?_ t
    · simp only [isHighSurrogate, decide_eq_true_eq]
      omega
    · simp only [isLowSurrogate, decide_eq_true_eq]
      omega

theorem fromCodePoint_head_not_low {cp : Nat} (h : isScalar cp = true) :
    ∃ w rest0, fromCodePoint cp = w :: rest0 ∧ isLowSurrogate w = false := by
  have h' := h
  simp only [isScalar, Bool.and_eq_true, decide_eq_true_eq, Bool.not_eq_true',
    decide_eq_false_iff_not] at h'
  unfold fromCodePoint
  by_cases hlt : cp < 0x10000
  · rw [if_pos hlt]
    refine ⟨cp, [], rfl, ?_⟩
    simp only [isLowSurrogate, decide_eq_false_iff_not]
    omega
  · rw [if_neg hlt]
    refine ⟨_, _, rfl, ?_⟩
    simp only [isLowSurrogate, decide_eq_false_iff_not]
    omega

/-- A per-position block is good when it is the original code unit itself, or
(for a non-surrogate unit) the encoding of one Unicode scalar value. -/
def goodBlock (u : Nat) (b : JSString) : Prop :=
  b = [u] ∨ (isSurrogate u = false ∧ ∃ cp, isScalar cp = true ∧ b = fromCodePoint cp)

/-- Indexed split-map-join: the common shape of `normalizeString` and
`randomizeConfusables`. -/
def renderIdx (g : Nat → Nat → JSString) : Nat → List Nat → JSString
  | _, [] => []
  | i, u :: rest => g i u ++ renderIdx g (i + 1) rest

theorem renderIdx_head_not_low (g : Nat → Nat → JSString)
    (hg : ∀ i u, goodBlock u (g i u)) {v : Nat} (hv : isLowSurrogate v = false)
    (i : Nat) (rest : List Nat) :
    ∃ w t', renderIdx g i (v :: rest) = w :: t' ∧ isLowSurrogate w = false := by
  show ∃ w t', g i v ++ renderIdx g (i + 1) rest = w :: t' ∧ isLowSurrogate w = false
  rcases hg i v with hb | ⟨_, cp, hcp, hb⟩
  · rw [hb]
    exact ⟨v, _, rfl, hv⟩
  · rcases fromCodePoint_head_not_low hcp with ⟨w, rest0, hw, hwl⟩
    rw [hb, hw]
    exact ⟨w, _, rfl, hwl⟩

/-- Rendering per-position good blocks preserves the code-point count: a
surrogate half always maps to itself, and every replacement block is the
encoding of exactly one scalar value. -/
theorem cpLen_renderIdx (g : Nat → Nat → JSString) (hg : ∀ i u, goodBlock u (g i u)) :
    ∀ (s : List Nat) (i : Nat), cpLen (renderIdx g i s) = cpLen s
  | [], _ => rfl
  | [u], i => by
    show cpLen (g i u ++ renderIdx g (i + 1) []) = cpLen [u]
    rcases hg i u with hb | ⟨_, cp, hcp, hb⟩
    · rw [hb]
      rfl
    · rw [hb, cpLen_scalar_append hcp]
      rfl
  | u :: v :: rest, i => by
    by_cases hpair : isHighSurrogate u = true ∧ isLowSurrogate v = true
    · have hu : g i u = [u] := by
        rcases hg i u with hb | ⟨hsur, _, _, _⟩
        · exact hb
        · exact absurd hsur (by simp [isSurrogate, hpair.1])
      have hv : g (i + 1) v = [v] := by
        rcases hg (i + 1) v with hb | ⟨hsur, _, _, _⟩
        · exact hb
        · exact absurd hsur (by simp [isSurrogate, hpair.2])
      show cpLen (g i u ++ (g (i + 1) v ++ renderIdx g (i + 2) rest)) = cpLen (u :: v :: rest)
      rw [hu, hv]
      show cpLen (u :: v :: renderIdx g (i + 2) rest) = cpLen (u :: v :: rest)
      rw [cpLen_cons_cons_high_low hpair.1 hpair.2, cpLen_cons_cons_high_low hpair.1 hpair.2,
        cpLen_renderIdx g hg rest (i + 2)]
    · have hcond : (isHighSurrogate u && isLowSurrogate v) = false := by
        cases h1 : isHighSurrogate u <;> cases h2 : isLowSurrogate v <;> simp_all
      have hrhs : cpLen (u :: v :: rest) = 1 + cpLen (v :: rest) := by
        simp [cpLen, hcond]
      rw [hrhs, ← cpLen_renderIdx g hg (v :: rest) (i + 1)]
      show cpLen (g i u ++ renderIdx g (i + 1) (v :: rest)) =
        1 + cpLen (renderIdx g (i + 1) (v :: rest))
      rcases hg i u with hb | ⟨_, cp, hcp, hb⟩
      · rw [hb]
        show cpLen (u :: renderIdx g (i + 1) (v :: rest)) =
          1 + cpLen (renderIdx g (i + 1) (v :: rest))
        by_cases hhigh : isHighSurrogate u = true
        · have hvlow : isLowSurrogate v = false := by
            cases h2 : isLowSurrogate v
            · rfl
            · exact absurd ⟨hhigh, h2⟩ hpair
          rcases renderIdx_head_not_low g hg hvlow (i + 1) rest with ⟨w, t', hw, hwl⟩
          rw [hw, cpLen_cons_high_not_low hhigh hwl]
        · rw [cpLen_cons_not_high (by simpa using hhigh)]
      · rw [hb, cpLen_scalar_append hcp]

/-! ### Claim C3: code-point length preservation -/

theorem isScalarEncoded_spec {t : JSString} (h : isScalarEncoded t = true) :
    ∃ cp, isScalar cp = true ∧ t = fromCodePoint cp := by
  match t with
  | [] => exact absurd h (by simp [isScalarEncoded])
  | [u] =>
    simp only [isScalarEncoded, isSurrogate, isHighSurrogate, isLowSurrogate,
      Bool.and_eq_true, decide_eq_true_eq, Bool.not_eq_true', Bool.or_eq_false_iff,
      decide_eq_false_iff_not] at h
    refine ⟨u, ?_, ?_⟩
    · simp only [isScalar, Bool.and_eq_true, decide_eq_true_eq, Bool.not_eq_true',
        decide_eq_false_iff_not]
      omega
    · rw [fromCodePoint, if_pos h.1]
  | [h1, l1] =>
    simp only [isScalarEncoded, isHighSurrogate, isLowSurrogate, Bool.and_eq_true,
      decide_eq_true_eq] at h
    refine ⟨0x10000 + (h1 - 0xD800) * 0x400 + (l1 - 0xDC00), ?_, ?_⟩
    · simp only [isScalar, Bool.and_eq_true, decide_eq_true_eq, Bool.not_eq_true',
        decide_eq_false_iff_not]
      omega
    · have hge : ¬ (0x10000 + (h1 - 0xD800) * 0x400 + (l1 - 0xDC00) < 0x10000) := by omega
      rw [fromCodePoint, if_neg hge]
      have e1 : 0xD800 +
          (0x10000 + (h1 - 0xD800) * 0x400 + (l1 - 0xDC00) - 0x10000) / 0x400 = h1 := by
        omega
      have e2 : 0xDC00 +
          (0x10000 + (h1 - 0xD800) * 0x400 + (l1 - 0xDC00) - 0x10000) % 0x400 = l1 := by
        omega
      rw [e1, e2]
  | _ :: _ :: _ :: _ => exact absurd h (by simp [isScalarEncoded])

theorem normBlock_goodBlock {m : ConfusableMap} (hwf : WFMap m = true)
    (type : ConfusableType) (u : Nat) : goodBlock u (normBlock m type u) := by
  unfold normBlock
  cases hob : objGet m.confusables [u] with
  | none => exact Or.inl rfl
  | some r =>
    show goodBlock u (if r.type = type then r.target.headD [] else [u])
    by_cases hty : r.type = type
    · rw [if_pos hty]
      have hwfe := wf_of_objGet hwf hob
      simp only [wfEntry, Bool.and_eq_true] at hwfe
      obtain ⟨⟨hk, hne⟩, hall⟩ := hwfe
      have hsur : isSurrogate u = false := by simpa using hk
      cases ht : r.target with
      | nil => rw [ht] at hne; exact absurd hne (by simp)
      | cons t0 ts =>
        have ht0 : isScalarEncoded t0 = true := by
          refine List.all_eq_true.mp hall t0 ?_
          rw [ht]; exact List.mem_cons_self _ _
        rcases isScalarEncoded_spec ht0 with ⟨cp, hcp, hcp2⟩
        refine Or.inr ⟨hsur, cp, hcp, ?_⟩
        rw [List.headD_cons]
        exact hcp2
    · rw [if_neg hty]
      exact Or.inl rfl

theorem normalizeString_eq_renderIdx (m : ConfusableMap) (type : ConfusableType) :
    ∀ (s : List Nat) (i : Nat),
      renderIdx (fun _ u => normBlock m type u) i s = normalizeString m s type
  | [], _ => rfl
  | u :: rest, i => by
    rw [normalizeString_cons]
    show normBlock m type u ++ renderIdx (fun _ u => normBlock m type u) (i + 1) rest =
      normBlock m type u ++ normalizeString m rest type
    rw [normalizeString_eq_renderIdx m type rest (i + 1)]

/-- Claim C3: for a well-formed dataset, `normalizeString` preserves the
code-point count of every string, and consequently two strings of different
code-point length are never confusable. -/
theorem normalizeString_preserves_cpLen (m : ConfusableMap) (type : ConfusableType)
    (a b : JSString) (hwf : WFMap m = true) :
    (∀ s : JSString, cpLen (normalizeString m s type) = cpLen s)
    ∧ (cpLen a ≠ cpLen b → areConfusable m a b type = false) := by
  have hlen : ∀ s : JSString, cpLen (normalizeString m s type) = cpLen s := by
    intro s
    rw [← normalizeString_eq_renderIdx m type s 0]
    exact cpLen_renderIdx _ (fun _ u => normBlock_goodBlock hwf type u) s 0
  refine ⟨hlen, fun hne => ?_⟩
  cases hc : areConfusable m a b type
  · rfl
  · exfalso
    have heq : normalizeString m a type = normalizeString m b type := by
      simpa [areConfusable] using hc
    exact hne (by rw [← hlen a, ← hlen b, heq])

/-- Witness for claim C3 at the concrete spec-scenario dataset `map0`. -/
theorem normalizeString_preserves_cpLen_witness :
    cpLen (normalizeString map0 [0x30, 0x6C] ConfusableType.MA) = cpLen [0x30, 0x6C]
    ∧ areConfusable map0 [0x30] [0x30, 0x30] ConfusableType.MA = false :=
  ⟨(normalizeString_preserves_cpLen map0 ConfusableType.MA [0x30] [0x30, 0x30] (by decide)).1
      [0x30, 0x6C],
   (normalizeString_preserves_cpLen map0 ConfusableType.MA [0x30] [0x30, 0x30] (by decide)).2
      (by decide)⟩


/-! ### getRandomConfusable: totality and safety -/

/-- The degraded ("return the input unchanged") condition of
`getRandomConfusable`: no record, a classification-filter mismatch, or every
target excluded (vacuously so for an empty target list). -/
def degradedB (m : ConfusableMap) (char : JSString) (options : RandomConfusableOptions) : Bool :=
  match objGet m.confusables char with
  | none => true
  | some confusable =>
    typeMismatchB options confusable || confusable.target.all (excludedByB options)

theorem getD_mem_of_lt {α : Type} (l : List α) (n : Nat) (d : α) (h : n < l.length) :
    l.getD n d ∈ l := by
  rw [List.getD_eq_getElem?_getD, List.getElem?_eq_getElem h]
  simp

/-- Full behavioural description of `getRandomConfusable` over well-formed
datasets: in every degraded case the input comes back unchanged, and
otherwise the result is a non-excluded element of the record's target list,
whatever the randomness. -/
theorem getRandomConfusable_spec (m : ConfusableMap) (char : JSString)
    (options : RandomConfusableOptions) (rnd : Nat) (hwf : WFMap m = true) :
    (degradedB m char options = true → getRandomConfusable m char options rnd = char)
    ∧ (degradedB m char options = false →
        ∃ r, objGet m.confusables char = some r ∧
          getRandomConfusable m char options rnd ∈ r.target ∧
          excludedByB options (getRandomConfusable m char options rnd) = false) := by
  constructor
  · intro hdeg
    by_cases hc : char = []
    · simp [getRandomConfusable, hc]
    · unfold getRandomConfusable
      unfold degradedB at hdeg
      rw [if_neg hc]
      cases hob : objGet m.confusables char with
      | none => rfl
      | some r =>
        rw [hob] at hdeg
        have hdeg' : (typeMismatchB options r || r.target.all (excludedByB options)) = true :=
          hdeg
        show (if r.target = [] then char
          else if typeMismatchB options r then char
          else match options.exclude with
            | some ex =>
              let targets := r.target.filter (fun t => !(ex.contains t))
              if targets = [] then char
              else targets.getD (rnd % targets.length) []
            | none => r.target.getD (rnd % r.target.length) []) = char
        by_cases h1 : r.target = []
        · rw [if_pos h1]
        · rw [if_neg h1]
          by_cases h2 : typeMismatchB options r = true
          · rw [if_pos h2]
          · rw [if_neg h2]
            have h2' : typeMismatchB options r = false := by
              cases hb : typeMismatchB options r
              · rfl
              · exact absurd hb h2
            have hall : r.target.all (excludedByB options) = true := by
              rw [h2'] at hdeg'
              simpa using hdeg'
            cases hex : options.exclude with
            | none =>
              exfalso
              rcases List.exists_mem_of_ne_nil _ h1 with ⟨t, ht⟩
              have hct := List.all_eq_true.mp hall t ht
              simp only [excludedByB, hex] at hct
              exact absurd hct (by simp)
            | some ex =>
              have hfil : r.target.filter (fun t => !(ex.contains t)) = [] := by
                rw [List.filter_eq_nil_iff]
                intro t ht
                have hct := List.all_eq_true.mp hall t ht
                simp only [excludedByB, hex] at hct
                simpa using List.elem_iff.mp hct
              show (if r.target.filter (fun t => !(ex.contains t)) = [] then char
                else (r.target.filter (fun t => !(ex.contains t))).getD
                  (rnd % (r.target.filter (fun t => !(ex.contains t))).length) []) = char
              rw [if_pos hfil]
  · intro hdeg
    unfold degradedB at hdeg
    cases hob : objGet m.confusables char with
    | none => rw [hob] at hdeg; exact absurd hdeg (by simp)
    | some r =>
      rw [hob] at hdeg
      have hdeg' : (typeMismatchB options r || r.target.all (excludedByB options)) = false :=
        hdeg
      rw [Bool.or_eq_false_iff] at hdeg'
      obtain ⟨htm, hnall⟩ := hdeg'
      have hc : char ≠ [] := by
        intro hcc
        have hwfe := wf_of_objGet hwf hob
        rw [hcc] at hwfe
        exact absurd hwfe (by simp [wfEntry])
      have hsome : ∃ t ∈ r.target, excludedByB options t = false := by
        by_contra hno
        push_neg at hno
        have hallt : r.target.all (excludedByB options) = true := by
          rw [List.all_eq_true]
          intro x hx
          cases hb : excludedByB options x
          · exact absurd hb (hno x hx)
          · rfl
        rw [hallt] at hnall
        exact absurd hnall (by simp)
      rcases hsome with ⟨t0, ht0, ht0e⟩
      have h1 : r.target ≠ [] := List.ne_nil_of_mem ht0
      refine ⟨r, rfl, ?_⟩
      unfold getRandomConfusable
      rw [if_neg hc, hob]
      show ((if r.target = [] then char
          else if typeMismatchB options r then char
          else match options.exclude with
            | some ex =>
              let targets := r.target.filter (fun t => !(ex.contains t))
              if targets = [] then char
              else targets.getD (rnd % targets.length) []
            | none => r.target.getD (rnd % r.target.length) []) ∈ r.target
        ∧ excludedByB options (if r.target = [] then char
          else if typeMismatchB options r then char
          else match options.exclude with
            | some ex =>
              let targets := r.target.filter (fun t => !(ex.contains t))
              if targets = [] then char
              else targets.getD (rnd % targets.length) []
            | none => r.target.getD (rnd % r.target.length) []) = false)
      rw [if_neg h1, if_neg (show ¬(typeMismatchB options r = true) by simp [htm])]
      cases hex : options.exclude with
      | none =>
        have hlt : rnd % r.target.length < r.target.length :=
          Nat.mod_lt _ (List.length_pos.mpr h1)
        refine ⟨getD_mem_of_lt _ _ _ hlt, ?_⟩
        simp only [excludedByB, hex]
      | some ex =>
        have hce : ex.contains t0 = false := by
          simp only [excludedByB, hex] at ht0e
          exact ht0e
        have hmemf : t0 ∈ r.target.filter (fun t => !(ex.contains t)) := by
          rw [List.mem_filter]
          refine ⟨ht0, ?_⟩
          show (!(ex.contains t0)) = true
          rw [hce]
          rfl
        have hfne : r.target.filter (fun t => !(ex.contains t)) ≠ [] :=
          List.ne_nil_of_mem hmemf
        show ((if r.target.filter (fun t => !(ex.contains t)) = [] then char
            else (r.target.filter (fun t => !(ex.contains t))).getD
              (rnd % (r.target.filter (fun t => !(ex.contains t))).length) []) ∈ r.target
          ∧ excludedByB options (if r.target.filter (fun t => !(ex.contains t)) = [] then char
            else (r.target.filter (fun t => !(ex.contains t))).getD
              (rnd % (r.target.filter (fun t => !(ex.contains t))).length) []) = false)
        rw [if_neg hfne]
        have hlt : rnd % (r.target.filter (fun t => !(ex.contains t))).length <
            (r.target.filter (fun t => !(ex.contains t))).length :=
          Nat.mod_lt _ (List.length_pos.mpr hfne)
        have hmem := getD_mem_of_lt (r.target.filter (fun t => !(ex.contains t)))
          (rnd % (r.target.filter (fun t => !(ex.contains t))).length) [] hlt
        rw [List.mem_filter] at hmem
        refine ⟨hmem.1, ?_⟩
        simp only [excludedByB, hex]
        simpa using hmem.2

/-- Claim C6: `getRandomConfusable` never fails.  Whenever the character has
no record, or the classification filter rejects the record, or every target
is excluded (in particular when the target list is empty), the original
character is returned unchanged; otherwise, for every outcome of the
randomness source, the result is an element of the record's target list that
is not in the exclusion set. -/
theorem getRandomConfusable_never_fails (m : ConfusableMap) (char : JSString)
    (options : RandomConfusableOptions) (rnd : Nat) (hwf : WFMap m = true) :
    (degradedB m char options = true → getRandomConfusable m char options rnd = char)
    ∧ (degradedB m char options = false →
        ∃ r, objGet m.confusables char = some r ∧
          getRandomConfusable m char options rnd ∈ r.target ∧
          excludedByB options (getRandomConfusable m char options rnd) = false) :=
  getRandomConfusable_spec m char options rnd hwf

/-- Witness for claim C6: at the spec-scenario dataset, a character with a
record and a non-excluded target gets a target, and a character with no
record comes back unchanged. -/
theorem getRandomConfusable_never_fails_witness :
    (∃ r, objGet map0.confusables [0x30] = some r ∧
      getRandomConfusable map0 [0x30] ⟨some ConfusableType.MA, some [[0x58]]⟩ 5 ∈ r.target ∧
      excludedByB ⟨some ConfusableType.MA, some [[0x58]]⟩
        (getRandomConfusable map0 [0x30] ⟨some ConfusableType.MA, some [[0x58]]⟩ 5) = false)
    ∧ getRandomConfusable map0 [0x31] ⟨some ConfusableType.MA, some [[0x58]]⟩ 5 = [0x31] :=
  ⟨(getRandomConfusable_never_fails map0 [0x30] ⟨some ConfusableType.MA, some [[0x58]]⟩ 5
      (by decide)).2 (by decide),
   (getRandomConfusable_never_fails map0 [0x31] ⟨some ConfusableType.MA, some [[0x58]]⟩ 5
      (by decide)).1 (by decide)⟩

/-! ### Claim C9: randomizeConfusables preserves code-point length -/

theorem getRandomConfusable_goodBlock {m : ConfusableMap} (hwf : WFMap m = true)
    (options : RandomConfusableOptions) (u rnd : Nat) :
    goodBlock u (getRandomConfusable m [u] options rnd) := by
  cases hdeg : degradedB m [u] options with
  | true =>
    rw [(getRandomConfusable_spec m [u] options rnd hwf).1 hdeg]
    exact Or.inl rfl
  | false =>
    rcases (getRandomConfusable_spec m [u] options rnd hwf).2 hdeg with ⟨r, hob, hmem, _⟩
    have hwfe := wf_of_objGet hwf hob
    simp only [wfEntry, Bool.and_eq_true] at hwfe
    obtain ⟨⟨hk, _⟩, hall⟩ := hwfe
    have hsur : isSurrogate u = false := by simpa using hk
    have hse : isScalarEncoded (getRandomConfusable m [u] options rnd) = true :=
      List.all_eq_true.mp hall _ hmem
    rcases isScalarEncoded_spec hse with ⟨cp, hcp, hcp2⟩
    exact Or.inr ⟨hsur, cp, hcp, hcp2⟩

theorem randomizeConfusables_eq_renderIdx (m : ConfusableMap)
    (options : RandomConfusableOptions) (coin : Nat → Bool) (pick : Nat → Nat) :
    ∀ (s : List Nat) (i : Nat),
      ((List.enumFrom i s).map (fun p =>
          if coin p.1 then getRandomConfusable m [p.2] options (pick p.1) else [p.2])).flatten =
        renderIdx (fun j u => if coin j then getRandomConfusable m [u] options (pick j)
          else [u]) i s
  | [], _ => rfl
  | u :: rest, i => by
    show (if coin i then getRandomConfusable m [u] options (pick i) else [u]) ++
        ((List.enumFrom (i + 1) rest).map (fun p =>
          if coin p.1 then getRandomConfusable m [p.2] options (pick p.1) else [p.2])).flatten =
      (if coin i then getRandomConfusable m [u] options (pick i) else [u]) ++
        renderIdx (fun j u => if coin j then getRandomConfusable m [u] options (pick j)
          else [u]) (i + 1) rest
    rw [randomizeConfusables_eq_renderIdx m options coin pick rest (i + 1)]

/-- Claim C9: for every well-formed dataset, every options value and every
outcome of the randomness source, `randomizeConfusables` preserves the
code-point count of the input — each position independently keeps its
character or replaces it by exactly one character. -/
theorem randomizeConfusables_preserves_cpLen (m : ConfusableMap)
    (options : RandomConfusableOptions) (coin : Nat → Bool) (pick : Nat → Nat)
    (text : JSString) (hwf : WFMap m = true) :
    cpLen (randomizeConfusables m text options coin pick) = cpLen text := by
  unfold randomizeConfusables
  rw [show List.enum text = List.enumFrom 0 text from rfl,
    randomizeConfusables_eq_renderIdx m options coin pick text 0]
  refine cpLen_renderIdx _ ?_ text 0
  intro i u
  cases hcoin : coin i
  · exact Or.inl rfl
  · exact getRandomConfusable_goodBlock hwf options u (pick i)

/-- Witness for claim C9 at the spec-scenario dataset and an all-heads coin
stream. -/
theorem randomizeConfusables_preserves_cpLen_witness :
    cpLen (randomizeConfusables map0 [0x30, 0x6C] ⟨none, none⟩
      (fun _ => true) (fun _ => 0)) = cpLen [0x30, 0x6C] :=
  randomizeConfusables_preserves_cpLen map0 ⟨none, none⟩ (fun _ => true) (fun _ => 0)
    [0x30, 0x6C] (by decide)

/-! ### Claim C7: idempotence of normalization -/

/-- Modelled from the spec: the dataset property the spec states to back
idempotence — no mapping target is itself the source of another mapping of
the same classification.  At the code-unit level: no code unit of a record's
first target element carries a record of the same classification. -/
def noTargetIsSource (m : ConfusableMap) (type : ConfusableType) : Bool :=
  m.confusables.all (fun p =>
    if p.2.type = type then
      (p.2.target.headD []).all (fun u =>
        match objGet m.confusables [u] with
        | some confusable => confusable.type != type
        | none => true)
    else true)

theorem normalizeString_id_of (m : ConfusableMap) (type : ConfusableType) :
    ∀ l : List Nat, (∀ u ∈ l, normBlock m type u = [u]) → normalizeString m l type = l
  | [], _ => rfl
  | u :: rest, h => by
    rw [normalizeString_cons, h u (List.mem_cons_self _ _),
      normalizeString_id_of m type rest (fun v hv => h v (List.mem_cons_of_mem _ hv))]
    rfl

/-- Claim C7: normalization is idempotent whenever the dataset satisfies the
spec's no-target-is-source property for the selected classification. -/
theorem normalizeString_idempotent (m : ConfusableMap) (type : ConfusableType)
    (hnts : noTargetIsSource m type = true) (s : JSString) :
    normalizeString m (normalizeString m s type) type = normalizeString m s type := by
  induction s with
  | nil => rfl
  | cons u rest ih =>
    rw [normalizeString_cons, normalizeString_append, ih]
    congr 1
    cases hob : objGet m.confusables [u] with
    | none =>
      have hnb : normBlock m type u = [u] := by unfold normBlock; rw [hob]
      rw [hnb, normalizeString_cons, normalizeString_nil, hnb, List.append_nil]
    | some r =>
      have hnb : normBlock m type u = (if r.type = type then r.target.headD [] else [u]) := by
        unfold normBlock
        rw [hob]
      rw [hnb]
      by_cases hty : r.type = type
      · rw [if_pos hty]
        apply normalizeString_id_of
        intro w hw
        have hmem := objGet_mem hob
        have hp := List.all_eq_true.mp hnts _ hmem
        have hp' : (if r.type = type then
            (r.target.headD []).all (fun v =>
              match objGet m.confusables [v] with
              | some confusable => confusable.type != type
              | none => true)
          else true) = true := hp
        rw [if_pos hty] at hp'
        have hw' := List.all_eq_true.mp hp' w hw
        have hw2 : (match objGet m.confusables [w] with
          | some confusable => confusable.type != type
          | none => true) = true := hw'
        cases hob2 : objGet m.confusables [w] with
        | none => unfold normBlock; rw [hob2]
        | some r2 =>
          rw [hob2] at hw2
          have hne : ¬ (r2.type = type) := by simpa using hw2
          unfold normBlock
          rw [hob2]
          show (if r2.type = type then r2.target.headD [] else [w]) = [w]
          rw [if_neg hne]
      · rw [if_neg hty, normalizeString_cons, normalizeString_nil, hnb, if_neg hty,
          List.append_nil]

/-- Witness for claim C7 at the spec-scenario dataset, whose target `"O"` has
no record. -/
theorem normalizeString_idempotent_witness :
    normalizeString map0 (normalizeString map0 [0x30, 0x30] ConfusableType.MA)
      ConfusableType.MA = normalizeString map0 [0x30, 0x30] ConfusableType.MA :=
  normalizeString_idempotent map0 ConfusableType.MA (by decide) [0x30, 0x30]



/-! ### Claim C4: forward/reverse consistency of the built dataset -/

theorem objGet_cons_pos {α : Type} (p : JSString × α) (rest : List (JSString × α))
    (k : JSString) (hp : (p.1 == k) = true) : objGet (p :: rest) k = some p.2 := by
  simp only [objGet, List.find?_cons, hp]
  rfl

theorem objGet_cons_neg {α : Type} (p : JSString × α) (rest : List (JSString × α))
    (k : JSString) (hp : (p.1 == k) = false) : objGet (p :: rest) k = objGet rest k := by
  simp only [objGet, List.find?_cons, hp]

theorem find?_map_replace {α : Type} (k : JSString) (v : α) :
    ∀ l : List (JSString × α), l.any (fun p => p.1 == k) = true →
      objGet (l.map (fun p => if p.1 == k then (k, v) else p)) k = some v
  | [], h => by simp at h
  | p :: rest, h => by
    rw [List.map_cons]
    cases hp : (p.1 == k) with
    | true =>
      rw [if_pos rfl, objGet_cons_pos _ _ _ (by simp)]
    | false =>
      rw [if_neg Bool.false_ne_true, objGet_cons_neg _ _ _ hp]
      have hrest : rest.any (fun p => p.1 == k) = true := by
        rcases List.any_eq_true.mp h with ⟨x, hx, hxk⟩
        rcases List.mem_cons.mp hx with rfl | hx'
        · rw [hp] at hxk
          exact absurd hxk (by simp)
        · exact List.any_eq_true.mpr ⟨x, hx', hxk⟩
      exact find?_map_replace k v rest hrest

theorem objGet_append_single {α : Type} (k : JSString) (v : α) :
    ∀ l : List (JSString × α), l.any (fun p => p.1 == k) = false →
      objGet (l ++ [(k, v)]) k = some v
  | [], _ => by
    rw [List.nil_append, objGet_cons_pos _ _ _ (by simp)]
  | p :: rest, h => by
    rw [List.any_cons, Bool.or_eq_false_iff] at h
    rw [List.cons_append, objGet_cons_neg _ _ _ h.1]
    exact objGet_append_single k v rest h.2

theorem objGet_objSet_self {α : Type} (l : List (JSString × α)) (k : JSString) (v : α) :
    objGet (objSet l k v) k = some v := by
  unfold objSet
  cases h : l.any (fun p => p.1 == k) with
  | true =>
    rw [if_pos rfl]
    exact find?_map_replace k v l h
  | false =>
    rw [if_neg Bool.false_ne_true]
    exact objGet_append_single k v l h

theorem objGet_map_replace_other {α : Type} {k k' : JSString} (hne : k' ≠ k) (v : α) :
    ∀ l : List (JSString × α),
      objGet (l.map (fun p => if p.1 == k then (k, v) else p)) k' = objGet l k'
  | [] => rfl
  | p :: rest => by
    rw [List.map_cons]
    cases hp : (p.1 == k) with
    | true =>
      have hpk : p.1 = k := by simpa using hp
      have hkk : ((k, v).1 == k') = false := by
        simp only [beq_eq_false_iff_ne, ne_eq]
        exact fun e => hne e.symm
      have hpk' : (p.1 == k') = false := by
        rw [hpk]
        simpa using hkk
      rw [if_pos rfl, objGet_cons_neg _ _ _ hkk, objGet_cons_neg _ _ _ hpk']
      exact objGet_map_replace_other hne v rest
    | false =>
      rw [if_neg Bool.false_ne_true]
      cases hpk : (p.1 == k') with
      | true => rw [objGet_cons_pos _ _ _ hpk, objGet_cons_pos _ _ _ hpk]
      | false =>
        rw [objGet_cons_neg _ _ _ hpk, objGet_cons_neg _ _ _ hpk]
        exact objGet_map_replace_other hne v rest

theorem objGet_append_single_other {α : Type} {k k' : JSString} (hne : k' ≠ k) (v : α) :
    ∀ l : List (JSString × α), objGet (l ++ [(k, v)]) k' = objGet l k'
  | [] => by
    rw [List.nil_append, objGet_cons_neg _ _ _ (by
      simp only [beq_eq_false_iff_ne, ne_eq]
      exact fun e => hne e.symm)]
  | p :: rest => by
    rw [List.cons_append]
    cases hp : (p.1 == k') with
    | true => rw [objGet_cons_pos _ _ _ hp, objGet_cons_pos _ _ _ hp]
    | false =>
      rw [objGet_cons_neg _ _ _ hp, objGet_cons_neg _ _ _ hp]
      exact objGet_append_single_other hne v rest

theorem objGet_objSet_other {α : Type} (l : List (JSString × α)) {k k' : JSString} (v : α)
    (hne : k' ≠ k) : objGet (objSet l k v) k' = objGet l k' := by
  unfold objSet
  cases h : l.any (fun p => p.1 == k) with
  | true =>
    rw [if_pos rfl]
    exact objGet_map_replace_other hne v l
  | false =>
    rw [if_neg Bool.false_ne_true]
    exact objGet_append_single_other hne v l

theorem addReverse_mem_preserved {rl : List (JSString × List JSString)} {t x : JSString}
    (t' s : JSString) (hx : x ∈ (objGet rl t).getD []) :
    x ∈ (objGet (addReverse rl t' s) t).getD [] := by
  unfold addReverse
  by_cases hteq : t = t'
  · subst hteq
    cases hgo : objGet rl t with
    | none =>
      rw [hgo] at hx
      exact absurd hx (by simp)
    | some l0 =>
      rw [hgo] at hx
      show x ∈ (objGet (objSet rl t (l0 ++ [s])) t).getD []
      rw [objGet_objSet_self]
      simp only [Option.getD_some] at hx ⊢
      exact List.mem_append.mpr (Or.inl hx)
  · cases hgo : objGet rl t' with
    | none =>
      show x ∈ (objGet (objSet rl t' [s]) t).getD []
      rw [objGet_objSet_other _ _ hteq]
      exact hx
    | some l0 =>
      show x ∈ (objGet (objSet rl t' (l0 ++ [s])) t).getD []
      rw [objGet_objSet_other _ _ hteq]
      exact hx

theorem addReverse_mem_self (rl : List (JSString × List JSString)) (t s : JSString) :
    s ∈ (objGet (addReverse rl t s) t).getD [] := by
  unfold addReverse
  cases hgo : objGet rl t with
  | none =>
    show s ∈ (objGet (objSet rl t [s]) t).getD []
    rw [objGet_objSet_self]
    simp
  | some l0 =>
    show s ∈ (objGet (objSet rl t (l0 ++ [s])) t).getD []
    rw [objGet_objSet_self]
    simp

theorem foldl_addReverse_preserved (s : JSString) :
    ∀ (ts : List JSString) (rl : List (JSString × List JSString)) {t x : JSString},
      x ∈ (objGet rl t).getD [] →
      x ∈ (objGet (ts.foldl (fun rl t' => addReverse rl t' s) rl) t).getD []
  | [], _, _, _, hx => hx
  | t' :: ts, rl, t, x, hx => by
    rw [List.foldl_cons]
    exact foldl_addReverse_preserved s ts _ (addReverse_mem_preserved t' s hx)

theorem foldl_addReverse_mem (s : JSString) :
    ∀ (ts : List JSString) (rl : List (JSString × List JSString)) {t : JSString},
      t ∈ ts → s ∈ (objGet (ts.foldl (fun rl t' => addReverse rl t' s) rl) t).getD []
  | [], _, t, ht => absurd ht (List.not_mem_nil t)
  | t' :: ts, rl, t, ht => by
    rw [List.foldl_cons]
    rcases List.mem_cons.mp ht with rfl | ht'
    · exact foldl_addReverse_preserved s ts _ (addReverse_mem_self rl t s)
    · exact foldl_addReverse_mem s ts _ ht'

theorem mem_objSet {α : Type} {l : List (JSString × α)} {k : JSString} {v : α}
    {p : JSString × α} (hp : p ∈ objSet l k v) : p = (k, v) ∨ p ∈ l := by
  unfold objSet at hp
  by_cases h : l.any (fun q => q.1 == k) = true
  · rw [if_pos h] at hp
    rcases List.mem_map.mp hp with ⟨q, hq, hqe⟩
    by_cases hqk : (q.1 == k) = true
    · rw [if_pos hqk] at hqe
      exact Or.inl hqe.symm
    · rw [if_neg hqk] at hqe
      exact Or.inr (hqe ▸ hq)
  · rw [if_neg h] at hp
    rcases List.mem_append.mp hp with hp | hp
    · exact Or.inr hp
    · exact Or.inl (by simpa using hp)

/-- The invariant the loop of `parseConfusablesFile` maintains: every stored
record's source sits in the reverse bucket of each of its targets. -/
def RevInv (cf : List (JSString × ConfusableRecord))
    (rl : List (JSString × List JSString)) : Prop :=
  ∀ k r, (k, r) ∈ cf → ∀ t ∈ r.target, r.source ∈ (objGet rl t).getD []

theorem revInv_applyEntry {cf : List (JSString × ConfusableRecord)}
    {rl : List (JSString × List JSString)} (hinv : RevInv cf rl) (e : RawEntry) :
    RevInv (applyEntry (cf, rl) e).1 (applyEntry (cf, rl) e).2 := by
  intro k r hkr t ht
  simp only [applyEntry] at hkr ⊢
  rcases mem_objSet hkr with heq | hmem
  · have hre : r = ⟨fromCodePoint e.source, e.targets.map fromCodePoint, e.type, none⟩ :=
      congrArg Prod.snd heq
    rw [hre]
    exact foldl_addReverse_mem _ _ _ (by rw [hre] at ht; exact ht)
  · exact foldl_addReverse_preserved _ _ _ (hinv k r hmem t ht)

theorem revInv_foldl :
    ∀ (entries : List RawEntry) (cf : List (JSString × ConfusableRecord))
      (rl : List (JSString × List JSString)), RevInv cf rl →
      RevInv (entries.foldl applyEntry (cf, rl)).1 (entries.foldl applyEntry (cf, rl)).2
  | [], _, _, h => h
  | e :: es, cf, rl, h => by
    rw [List.foldl_cons]
    exact revInv_foldl es (applyEntry (cf, rl) e).1 (applyEntry (cf, rl) e).2
      (revInv_applyEntry h e)

/-- Claim C4 (amended): in every dataset built by `parseConfusablesFile`, for
every record `r` and every target `t` of `r` that is a single UTF-16 code
unit (a basic-plane character), `r.source` is a member of
`getConfusableSources(t)`.  (For supplementary targets the lookup indexes the
reverse map by the lone first surrogate and returns the empty list.) -/
theorem reverse_consistency_single_unit_targets (entries : List RawEntry)
    (k : JSString) (r : ConfusableRecord)
    (hkr : (k, r) ∈ (mkConfusableMap entries).confusables)
    (t : JSString) (ht : t ∈ r.target) (u : Nat) (hu : t = [u]) :
    r.source ∈ getConfusableSources (mkConfusableMap entries) t := by
  have hinv := revInv_foldl entries [] []
    (fun k r h => absurd h (List.not_mem_nil _))
  have hmem : r.source ∈ (objGet (mkConfusableMap entries).reverseLookup t).getD [] :=
    hinv k r hkr t ht
  rw [hu] at hmem ⊢
  exact hmem

/-- Claim C4 (counterexample): the dataset built from the single upstream line
`118A0 ; 118C0 ; MA` (a supplementary-plane target, shaped exactly as
`parseConfusablesFile` builds it) holds the record and a reverse bucket keyed
by the full target character, yet `getConfusableSources` of the target is
empty — it indexes with the target's first UTF-16 code unit, a lone high
surrogate. -/
theorem reverse_lookup_misses_supplementary_target :
    (fromCodePoint 0x118A0,
      (⟨fromCodePoint 0x118A0, [fromCodePoint 0x118C0], ConfusableType.MA, none⟩ :
        ConfusableRecord)) ∈
      (mkConfusableMap [⟨0x118A0, [0x118C0], ConfusableType.MA⟩]).confusables
    ∧ fromCodePoint 0x118C0 ∈
      (⟨fromCodePoint 0x118A0, [fromCodePoint 0x118C0], ConfusableType.MA, none⟩ :
        ConfusableRecord).target
    ∧ objGet (mkConfusableMap [⟨0x118A0, [0x118C0], ConfusableType.MA⟩]).reverseLookup
        (fromCodePoint 0x118C0) = some [fromCodePoint 0x118A0]
    ∧ getConfusableSources (mkConfusableMap [⟨0x118A0, [0x118C0], ConfusableType.MA⟩])
        (fromCodePoint 0x118C0) = [] := by decide

/-- Witness for the amended claim C4 at the spec-scenario dataset: `"0"` maps
to `"O"`, a one-unit target, and is reverse-found. -/
theorem reverse_consistency_single_unit_targets_witness :
    ([0x30] : JSString) ∈ getConfusableSources
      (mkConfusableMap [⟨0x30, [0x4F], ConfusableType.MA⟩]) [0x4F] :=
  reverse_consistency_single_unit_targets [⟨0x30, [0x4F], ConfusableType.MA⟩]
    [0x30] ⟨[0x30], [[0x4F]], ConfusableType.MA, none⟩ (by decide) [0x4F] (by decide)
    0x4F rfl
